import Mathlib

/-!
Shallow embedding of the turb1600 sponge hash (reference implementation
`src/ref/turb1600.py`) and verification of its specification claims.

The 25-lane state of Python lists is modelled as a function `Nat → Nat`
(only indices 0..24 are ever read); lanes are arbitrary-precision naturals
masked to 64 bits exactly where the Python code masks them.  Byte strings
are `List Nat`.
-/

namespace Turb1600

/-! Core parameters (`turb1600.py`, lines 16-26) -/

def LANES : Nat := 25

def BLOCK_BYTES : Nat := 136

def BLOCK_LANES : Nat := BLOCK_BYTES / 8

def ROUNDS_MAIN : Nat := 36

def ROUNDS_FINAL : Nat := 6

def OUT_BYTES : Nat := 128

/-- The domain tag `INIT_TAG = b"turb1600|sponge|1600|1088|512|1024|release"` as byte values. -/
def INIT_TAG : List Nat :=
  "turb1600|sponge|1600|1088|512|1024|release".toList.map Char.toNat

/-- The 64-bit mask `MASK = (1 << 64) - 1`. -/
def MASK : Nat := (1 <<< 64) - 1

/-! Rotation helpers (lines 31-35) -/

/-- Left rotation `rol(x, r) = ((x << r) | (x >> (64 - r))) & MASK`. -/
def rol (x r : Nat) : Nat :=
  ((x <<< r) ||| (x >>> (64 - r))) &&& MASK

/-- Round-dependent rotation `rot_offset(round_, base) = (base + ((round_ * 13) & 63)) & 63`. -/
def rot_offset (round_ base : Nat) : Nat :=
  (base + ((round_ * 13) &&& 63)) &&& 63

/-! Round constant (lines 41-48) -/

/-- The function `round_constant(idx)`: the xorshift-multiply mix of the Python source,
with `&&& MASK` exactly where the source writes `& MASK`. -/
def round_constant (idx : Nat) : Nat :=
  let x := idx ^^^ 0xA5A5A5A5A5A5A5A5 ^^^ rol idx 23
  let x := x ^^^ (x >>> 33)
  let x := (x * 0xC2B2AE3D27D4EB4F) &&& MASK
  let x := x ^^^ (x >>> 29)
  let x := (x * 0x165667B19E3779F9) &&& MASK
  let x := x ^^^ (x >>> 32)
  x &&& MASK

/-- The seven-step mix as the specification §4.2 words it, with every
step explicitly reduced modulo `2 ^ 64`. -/
def roundConstantSpec (r : Nat) : Nat :=
  let x := (r ^^^ 0xA5A5A5A5A5A5A5A5 ^^^ rol r 23) % 2 ^ 64
  let x := (x ^^^ (x >>> 33)) % 2 ^ 64
  let x := (x * 0xC2B2AE3D27D4EB4F) % 2 ^ 64
  let x := (x ^^^ (x >>> 29)) % 2 ^ 64
  let x := (x * 0x165667B19E3779F9) % 2 ^ 64
  let x := (x ^^^ (x >>> 32)) % 2 ^ 64
  x % 2 ^ 64

/-! Permutation tables (lines 54-62) -/

def ROT_TABLE : List Nat :=
  [0, 1, 62, 28, 27] ++ [36, 44, 6, 55, 20] ++ [3, 10, 43, 25, 39] ++
    [41, 45, 15, 21, 8] ++ [18, 2, 61, 56, 14]

def PERM_TABLE : List Nat :=
  [0, 7, 14, 21, 3] ++ [10, 17, 24, 6, 13] ++ [20, 2, 9, 16, 23] ++
    [5, 12, 19, 1, 8] ++ [15, 22, 4, 11, 18]

/-- The Python 25-element state list, as a function (indices ≥ 25 unused). -/
abbrev State := Nat → Nat

/-- Little-endian `int.from_bytes` of a byte list. -/
def wordLE (bs : List Nat) : Nat := bs.foldr (fun b acc => b + 256 * acc) 0

/-- Absorption `absorb_block(state, block)` (lines 68-70): for each `i ∈ 0..16`, XOR
the little-endian word `block[i*8:(i+1)*8]` into lane `i`. -/
def absorb_block (state : State) (block : List Nat) : State :=
  (List.range BLOCK_LANES).foldl
    (fun st i =>
      Function.update st i (st i ^^^ wordLE ((block.drop (i * 8)).take 8)))
    state

/-- Theta column mix (lines 74-79): the double loop
`state[x + 5*y] ^= d[x]` touches each lane once, with `x = i % 5`. -/
def theta (s : State) : State :=
  let c := fun x => s x ^^^ s (x + 5) ^^^ s (x + 10) ^^^ s (x + 15) ^^^ s (x + 20)
  let d : List Nat :=
    [c 4 ^^^ rol (c 1) 1, c 0 ^^^ rol (c 2) 1, c 1 ^^^ rol (c 3) 1,
     c 2 ^^^ rol (c 4) 1, c 3 ^^^ rol (c 0) 1]
  fun i => if i < LANES then s i ^^^ d.getD (i % 5) 0 else s i

/-- Rho and pi (lines 82-83): `tmp[PERM_TABLE[i]] = rol(state[i], rot_offset(round_, ROT_TABLE[i]))`. -/
def rhoPi (round_ : Nat) (s tmp : State) : State :=
  (List.range LANES).foldl
    (fun t i =>
      Function.update t (PERM_TABLE.getD i 0)
        (rol (s i) (rot_offset round_ (ROT_TABLE.getD i 0))))
    tmp

/-- Copy-back `state[:] = tmp[:]` (line 84): the 25 scratch lanes replace the state wholesale. -/
def copyBack (s t : State) : State := fun i => if i < LANES then t i else s i

/-- Python `(~b) & c` on nonnegative ints: bit `j` of the result is
`¬b_j ∧ c_j` (the two-complement value `~b` has bit `j = 1 - b_j`), i.e. the bits
of `c` not set in `b`. -/
def pyAndNot (b c : Nat) : Nat := c ^^^ (b &&& c)

/-- One χ row (lines 88-95): snapshot `(a,b,c,d,e) = state[i:i+5]`, five
sequential XOR assignments, then `state[i+j] &= MASK` for `j ∈ 0..4`. -/
def chiRow (st : State) (i : Nat) : State :=
  let a := st i
  let b := st (i + 1)
  let c := st (i + 2)
  let d := st (i + 3)
  let e := st (i + 4)
  let st1 := Function.update st i (st i ^^^ pyAndNot b c)
  let st2 := Function.update st1 (i + 1) (st1 (i + 1) ^^^ pyAndNot c d)
  let st3 := Function.update st2 (i + 2) (st2 (i + 2) ^^^ pyAndNot d e)
  let st4 := Function.update st3 (i + 3) (st3 (i + 3) ^^^ pyAndNot e a)
  let st5 := Function.update st4 (i + 4) (st4 (i + 4) ^^^ pyAndNot a b)
  (List.range 5).foldl (fun t j => Function.update t (i + j) (t (i + j) &&& MASK)) st5

/-- Chi (lines 87-95): rows start at `i = 0, 5, 10, 15, 20` (`range(0, LANES, 5)`). -/
def chi (st : State) : State := [0, 5, 10, 15, 20].foldl chiRow st

/-- Iota (line 98): `state[(round_ * 7) % LANES] ^= round_constant(round_)`. -/
def iota (round_ : Nat) (s : State) : State :=
  Function.update s ((round_ * 7) % LANES)
    (s ((round_ * 7) % LANES) ^^^ round_constant round_)

/-- One permutation round (lines 72-98).  The Python scratch list `tmp`
is fully overwritten by ρ+π before it is read (PERM_TABLE is a
permutation of 0..24), so the scratch is modelled as the zero state. -/
def permute (state : State) (round_ : Nat) : State :=
  let s1 := theta state
  let s2 := copyBack s1 (rhoPi round_ s1 (fun _ => 0))
  let s3 := chi s2
  iota round_ s3

/-- Repeated permutation, `for _ in range(n): permute(state, tmp, round_); round_ += 1`. -/
def permuteN (n : Nat) (state : State) (round_ : Nat) : State × Nat :=
  match n with
  | 0 => (state, round_)
  | n + 1 => permuteN n (permute state round_) (round_ + 1)

/-- The 136-byte init block (lines 106-110): zero buffer, the first
`n = min(len(INIT_TAG), BLOCK_BYTES)` bytes replaced by the domain tag,
`block[n] = 0x01`, `block[-1] |= 0x80`. -/
def seedBlock : List Nat :=
  let n := min INIT_TAG.length BLOCK_BYTES
  let block := INIT_TAG.take n ++ List.replicate (BLOCK_BYTES - n) 0
  let block := block.set n 0x01
  block.set (BLOCK_BYTES - 1) (block.getD (BLOCK_BYTES - 1) 0 ||| 0x80)

/-- Initialization `seed_state` (lines 104-113): absorb the padded domain tag into the
zero state and run 8 warm-up rounds with round indices 0..7. -/
def seed_state : State :=
  (permuteN 8 (absorb_block (fun _ => 0) seedBlock) 0).1

/-! The sponge driver (lines 119-157). -/

/-- Little-endian serialization of one lane, the Python
`x.to_bytes(8, "little")`: byte `j` is `(x >> 8j) & 0xFF`. -/
def leBytes8 (x : Nat) : List Nat := (List.range 8).map fun j => (x >>> (8 * j)) % 256

/-- The full-block absorb loop (lines 126-131):
`while pos + BLOCK_BYTES <= len(data)`: absorb `data[pos:pos+136]`,
permute `ROUNDS_MAIN` times, advance `pos`. -/
def absorbLoop (data : List Nat) (state : State) (round_ pos : Nat) :
    State × Nat × Nat :=
  if h : pos + BLOCK_BYTES ≤ data.length then
    let state1 := absorb_block state ((data.drop pos).take BLOCK_BYTES)
    let res := permuteN ROUNDS_MAIN state1 round_
    absorbLoop data res.1 res.2 (pos + BLOCK_BYTES)
  else (state, round_, pos)
termination_by data.length - pos
decreasing_by
  have hB : BLOCK_BYTES = 136 := rfl
  omega

/-- The final padded block (lines 134-139): zero buffer of 136 bytes,
`tail[:rem] = data[pos:]`, `tail[rem] = 0x01`, `tail[-1] |= 0x80`. -/
def finalBlock (data : List Nat) (pos : Nat) : List Nat :=
  let rem := data.length - pos
  let tail := data.drop pos ++ List.replicate (BLOCK_BYTES - rem) 0
  let tail := tail.set rem 0x01
  tail.set (BLOCK_BYTES - 1) (tail.getD (BLOCK_BYTES - 1) 0 ||| 0x80)

/-- The squeeze perturbation `state[-1] ^= MASK` (line 147): flip every
bit of the last capacity lane, `state[24]`. -/
def flipLast (state : State) : State :=
  Function.update state (LANES - 1) (state (LANES - 1) ^^^ MASK)

/-- The inner squeeze read loop (lines 148-151): for `i ∈ 0..16`, append
the 8 little-endian bytes of lane `i` unless `OUT_BYTES` bytes have been
collected (the Python `break` is modelled by the guard: once the buffer
is full every remaining iteration appends nothing, which yields the same
buffer the `break` leaves behind). -/
def readLanes (state : State) (out : List Nat) : List Nat :=
  (List.range BLOCK_LANES).foldl
    (fun o i => if OUT_BYTES ≤ o.length then o else o ++ leBytes8 (state i)) out

/-- The squeeze loop (lines 145-152): `while len(out) < OUT_BYTES`: flip
lane 24, read rate lanes, permute, increment the round counter. -/
def squeezeLoop (state : State) (round_ : Nat) (out : List Nat) : List Nat :=
  if h : out.length < OUT_BYTES then
    let state1 := flipLast state
    let out1 := readLanes state1 out
    squeezeLoop (permute state1 round_) (round_ + 1) out1
  else out
termination_by OUT_BYTES - out.length
decreasing_by
  have hmono : ∀ (l acc : List Nat), acc.length ≤
      (l.foldl (fun o i => if OUT_BYTES ≤ o.length then o
        else o ++ leBytes8 (flipLast state i)) acc).length := by
    intro l
    induction l with
    | nil => intro acc; simp
    | cons a t ih =>
      intro acc
      rw [List.foldl_cons]
      refine Nat.le_trans ?_ (ih _)
      by_cases hc : OUT_BYTES ≤ acc.length
      · simp [hc]
      · simp [hc]
  have hgt : out.length < (readLanes (flipLast state) out).length := by
    unfold readLanes
    have hrge : List.range BLOCK_LANES =
        0 :: [1, 2, 3, 4, 5, 6, 7, 8, 9, 10, 11, 12, 13, 14, 15, 16] := rfl
    rw [hrge, List.foldl_cons, if_neg (Nat.not_le.mpr h)]
    refine Nat.lt_of_lt_of_le ?_ (hmono _ _)
    have hlen : (out ++ leBytes8 (flipLast state 0)).length = out.length + 8 := by
      simp [leBytes8]
    omega
  omega

/-- The absorb phase of `turb1600_hash` (lines 121-131): seeded state,
`round_ = 0`, `pos = 0`, then the full-block loop.  Returns
`(state, round_, pos)`. -/
def absorbPhase (data : List Nat) : State × Nat × Nat :=
  absorbLoop data seed_state 0 0

/-- Lines 133-144: absorb the final padded block, then permute
`ROUNDS_MAIN + ROUNDS_FINAL` times.  Returns the state and round counter
entering the squeeze phase. -/
def finalizeState (data : List Nat) : State × Nat :=
  let a := absorbPhase data
  permuteN (ROUNDS_MAIN + ROUNDS_FINAL) (absorb_block a.1 (finalBlock data a.2.2)) a.2.1

/-- The hash `turb1600_hash(data)` (lines 120-157): absorb, finalize,
squeeze, return `bytes(out[:OUT_BYTES])`. -/
def turb1600_hash (data : List Nat) : List Nat :=
  let f := finalizeState data
  (squeezeLoop f.1 f.2 []).take OUT_BYTES

/-- Variant of the squeeze loop for the refinement claim C2: the body is
identical, but the trailing `permute` call (the one executed after the
output buffer is already full) is skipped, exactly the elision the spec
describes. -/
def squeezeLoopElide (state : State) (round_ : Nat) (out : List Nat) : List Nat :=
  if h : out.length < OUT_BYTES then
    let state1 := flipLast state
    let out1 := readLanes state1 out
    if h2 : out1.length < OUT_BYTES then
      squeezeLoopElide (permute state1 round_) (round_ + 1) out1
    else out1
  else out
termination_by OUT_BYTES - out.length
decreasing_by
  have hmono : ∀ (l acc : List Nat), acc.length ≤
      (l.foldl (fun o i => if OUT_BYTES ≤ o.length then o
        else o ++ leBytes8 (flipLast state i)) acc).length := by
    intro l
    induction l with
    | nil => intro acc; simp
    | cons a t ih =>
      intro acc
      rw [List.foldl_cons]
      refine Nat.le_trans ?_ (ih _)
      by_cases hc : OUT_BYTES ≤ acc.length
      · simp [hc]
      · simp [hc]
  have hgt : out.length < (readLanes (flipLast state) out).length := by
    unfold readLanes
    have hrge : List.range BLOCK_LANES =
        0 :: [1, 2, 3, 4, 5, 6, 7, 8, 9, 10, 11, 12, 13, 14, 15, 16] := rfl
    rw [hrge, List.foldl_cons, if_neg (Nat.not_le.mpr h)]
    refine Nat.lt_of_lt_of_le ?_ (hmono _ _)
    have hlen : (out ++ leBytes8 (flipLast state 0)).length = out.length + 8 := by
      simp [leBytes8]
    omega
  omega

/-- Variant of `turb1600_hash` with the trailing squeeze permutation
elided. -/
def turb1600_hash_elide (data : List Nat) : List Nat :=
  let f := finalizeState data
  (squeezeLoopElide f.1 f.2 []).take OUT_BYTES

/-! Helper lemmas about 64-bit masking. -/

theorem MASK_eq : MASK = 2 ^ 64 - 1 := by decide

theorem and_MASK_eq_mod (x : Nat) : x &&& MASK = x % 2 ^ 64 := by
  rw [MASK_eq]
  exact Nat.and_pow_two_sub_one_eq_mod x 64

theorem and_MASK_lt (x : Nat) : x &&& MASK < 2 ^ 64 := by
  rw [and_MASK_eq_mod]
  exact Nat.mod_lt _ (by norm_num)

theorem and_MASK_of_lt {x : Nat} (h : x < 2 ^ 64) : x &&& MASK = x := by
  rw [and_MASK_eq_mod]
  exact Nat.mod_eq_of_lt h

theorem xor_lt_64 {a b : Nat} (ha : a < 2 ^ 64) (hb : b < 2 ^ 64) :
    a ^^^ b < 2 ^ 64 :=
  Nat.xor_lt_two_pow ha hb

theorem shiftRight_le_self (x n : Nat) : x >>> n ≤ x := by
  rw [Nat.shiftRight_eq_div_pow]
  exact Nat.div_le_self _ _

theorem xor_shiftRight_lt {x : Nat} (h : x < 2 ^ 64) (n : Nat) :
    x ^^^ (x >>> n) < 2 ^ 64 :=
  xor_lt_64 h (Nat.lt_of_le_of_lt (shiftRight_le_self x n) h)

theorem rol_lt (x r : Nat) : rol x r < 2 ^ 64 :=
  and_MASK_lt _

/-! Claim C7 -/

/-- C7: for every round index `r` treated as a 64-bit value (`r < 2^64`),
`round_constant r` equals the seven-step mix of spec §4.2 in which every
multiplication and XOR wraps modulo `2^64`, and the result lies in
`[0, 2^64)`. -/
theorem round_constant_eq_spec_mix (r : Nat) (h : r < 2 ^ 64) :
    round_constant r = roundConstantSpec r ∧ round_constant r < 2 ^ 64 := by
  constructor
  · unfold round_constant roundConstantSpec
    dsimp only
    simp only [and_MASK_eq_mod]
    set a := r ^^^ 0xA5A5A5A5A5A5A5A5 ^^^ rol r 23 with ha_def
    have ha : a < 2 ^ 64 := xor_lt_64 (xor_lt_64 h (by norm_num)) (rol_lt r 23)
    rw [Nat.mod_eq_of_lt ha, Nat.mod_eq_of_lt (xor_shiftRight_lt ha 33)]
    set b := (a ^^^ a >>> 33) * 0xC2B2AE3D27D4EB4F % 2 ^ 64 with hb_def
    have hb : b < 2 ^ 64 := Nat.mod_lt _ (by norm_num)
    rw [Nat.mod_eq_of_lt (xor_shiftRight_lt hb 29)]
    set c := (b ^^^ b >>> 29) * 0x165667B19E3779F9 % 2 ^ 64 with hc_def
    have hc : c < 2 ^ 64 := Nat.mod_lt _ (by norm_num)
    rw [Nat.mod_eq_of_lt (xor_shiftRight_lt hc 32)]
    exact (Nat.mod_eq_of_lt (xor_shiftRight_lt hc 32)).symm
  · exact and_MASK_lt _

/-- Witness for C7 at `r = 0`. -/
theorem round_constant_eq_spec_mix_witness :
    (0 : Nat) < 2 ^ 64 ∧
      (round_constant 0 = roundConstantSpec 0 ∧ round_constant 0 < 2 ^ 64) :=
  ⟨by norm_num, round_constant_eq_spec_mix 0 (by norm_num)⟩

/-! Claim C10 -/

/-- C10: for `x < 2^64` and rotation amounts `r ≤ 63`, `rol x r` is
well-defined with a value in `[0, 2^64)`; in the boundary case `r = 0`
(which `rot_offset` produces, e.g. `rot_offset 0 0 = 0` for base 0 in
round 0) the expression `x >>> (64 - r)` is a shift by 64 and
`rol x 0 = x`. -/
theorem rol_well_defined (x r : Nat) (hx : x < 2 ^ 64) (hr : r ≤ 63) :
    rol x r < 2 ^ 64 ∧ rol x 0 = x ∧ rot_offset 0 0 = 0 := by
  refine ⟨rol_lt x r, ?_, by decide⟩
  unfold rol
  have h64 : x >>> (64 - 0) = 0 := by
    rw [Nat.shiftRight_eq_div_pow]
    exact Nat.div_eq_of_lt hx
  rw [h64]
  simp only [Nat.shiftLeft_zero, Nat.or_zero]
  exact and_MASK_of_lt hx

/-- Witness for C10 at `x = 5`, `r = 0`. -/
theorem rol_well_defined_witness :
    (5 : Nat) < 2 ^ 64 ∧ (0 : Nat) ≤ 63 ∧
      (rol 5 0 < 2 ^ 64 ∧ rol 5 0 = 5 ∧ rot_offset 0 0 = 0) :=
  ⟨by norm_num, by norm_num, rol_well_defined 5 0 (by norm_num) (by norm_num)⟩

/-! Claim C9 -/

theorem foldl_update_range_apply (w : Nat → Nat) :
    ∀ (n : Nat) (s : State) (j : Nat),
      ((List.range n).foldl (fun st i => Function.update st i (st i ^^^ w i)) s) j =
        if j < n then s j ^^^ w j else s j := by
  intro n
  induction n with
  | zero => intro s j; simp
  | succ n ih =>
    intro s j
    rw [List.range_succ, List.foldl_append, List.foldl_cons, List.foldl_nil]
    by_cases hj : j = n
    · subst hj
      rw [Function.update_same, ih]
      simp
    · rw [Function.update_noteq hj, ih]
      have : (j < n + 1) ↔ (j < n) := by omega
      simp [this]

/-- C9: for every state `S` and block `B`, `absorb_block S B` XORs the
little-endian word `B[8i..8i+8)` into lane `i` for each `i ∈ 0..16`, and
leaves every capacity lane (`i ≥ 17`, in particular `S[17]`..`S[24]`)
exactly unchanged. -/
theorem absorb_block_rate_xor_capacity_frame (s : State) (block : List Nat) :
    (∀ i, i < BLOCK_LANES →
        absorb_block s block i = s i ^^^ wordLE ((block.drop (i * 8)).take 8)) ∧
    (∀ i, BLOCK_LANES ≤ i → absorb_block s block i = s i) := by
  constructor
  · intro i hi
    unfold absorb_block
    rw [foldl_update_range_apply (fun i => wordLE ((block.drop (i * 8)).take 8))]
    simp [hi]
  · intro i hi
    unfold absorb_block
    rw [foldl_update_range_apply (fun i => wordLE ((block.drop (i * 8)).take 8))]
    simp [Nat.not_lt.mpr hi]

/-- Witness for C9: the zero state and the zero block, lane 0 and lane 17. -/
theorem absorb_block_rate_xor_capacity_frame_witness :
    (0 : Nat) < BLOCK_LANES ∧ BLOCK_LANES ≤ 17 ∧
      absorb_block (fun _ => 0) (List.replicate 136 0) 0 =
        (fun _ => (0 : Nat)) 0 ^^^
          wordLE (((List.replicate 136 0).drop (0 * 8)).take 8) ∧
      absorb_block (fun _ => 0) (List.replicate 136 0) 17 = (fun _ => (0 : Nat)) 17 :=
  ⟨by decide, by decide,
    (absorb_block_rate_xor_capacity_frame (fun _ => 0) (List.replicate 136 0)).1 0
      (by decide),
    (absorb_block_rate_xor_capacity_frame (fun _ => 0) (List.replicate 136 0)).2 17
      (by decide)⟩

/-! Claim C5 -/

theorem pyAndNot_lt {b c : Nat} (hc : c < 2 ^ 64) : pyAndNot b c < 2 ^ 64 :=
  xor_lt_64 hc (Nat.lt_of_le_of_lt Nat.and_le_right hc)

/-- For 64-bit values, the Python expression `(~b) & c` is `(MASK ^^^ b) &&& c`,
i.e. AND with the 64-bit complement of `b`. -/
theorem pyAndNot_eq_not64_and {b c : Nat} (hb : b < 2 ^ 64) (hc : c < 2 ^ 64) :
    pyAndNot b c = (MASK ^^^ b) &&& c := by
  apply Nat.eq_of_testBit_eq
  intro i
  simp only [pyAndNot, Nat.testBit_xor, Nat.testBit_and, MASK_eq,
    Nat.testBit_two_pow_sub_one]
  by_cases hi : i < 64
  · simp only [hi, decide_eq_true_eq, decide_True]
    cases b.testBit i <;> cases c.testBit i <;> rfl
  · have h64 : (64 : Nat) ≤ i := Nat.le_of_not_lt hi
    have hb' : b.testBit i = false :=
      Nat.testBit_lt_two_pow
        (lt_of_lt_of_le hb (Nat.pow_le_pow_right (by norm_num) h64))
    have hc' : c.testBit i = false :=
      Nat.testBit_lt_two_pow
        (lt_of_lt_of_le hc (Nat.pow_le_pow_right (by norm_num) h64))
    simp [hb', hc', hi]

theorem masked_chi_form {a b c : Nat} (ha : a < 2 ^ 64) (hb : b < 2 ^ 64)
    (hc : c < 2 ^ 64) :
    (a ^^^ pyAndNot b c) &&& MASK = a ^^^ ((MASK ^^^ b) &&& c) := by
  rw [and_MASK_of_lt (xor_lt_64 ha (pyAndNot_lt hc)), pyAndNot_eq_not64_and hb hc]

/-- C5: in the χ stage, for every row `y ∈ 0..4` the five updated lanes
are computed from a snapshot `(a,b,c,d,e)` of lanes `S[5y..5y+4]` taken
before any write in that row: the new values are `a⊕((¬b)&c)`,
`b⊕((¬c)&d)`, `c⊕((¬d)&e)`, `d⊕((¬e)&a)`, `e⊕((¬a)&b)` with `¬` the
64-bit complement — parallel-update semantics.  The hypothesis that all
lanes are 64-bit values holds at the χ input of every permutation round
because ρ+π masks every lane it writes. -/
theorem chi_row_snapshot (st : State) (hst : ∀ i, i < LANES → st i < 2 ^ 64) :
    ∀ y, y < 5 →
      chi st (5 * y) =
          st (5 * y) ^^^ ((MASK ^^^ st (5 * y + 1)) &&& st (5 * y + 2)) ∧
      chi st (5 * y + 1) =
          st (5 * y + 1) ^^^ ((MASK ^^^ st (5 * y + 2)) &&& st (5 * y + 3)) ∧
      chi st (5 * y + 2) =
          st (5 * y + 2) ^^^ ((MASK ^^^ st (5 * y + 3)) &&& st (5 * y + 4)) ∧
      chi st (5 * y + 3) =
          st (5 * y + 3) ^^^ ((MASK ^^^ st (5 * y + 4)) &&& st (5 * y)) ∧
      chi st (5 * y + 4) =
          st (5 * y + 4) ^^^ ((MASK ^^^ st (5 * y)) &&& st (5 * y + 1)) := by
  have H : ∀ a b c : Nat, a < LANES → b < LANES → c < LANES →
      (st a ^^^ pyAndNot (st b) (st c)) &&& MASK =
        st a ^^^ ((MASK ^^^ st b) &&& st c) :=
    fun a b c ha hb hc => masked_chi_form (hst a ha) (hst b hb) (hst c hc)
  intro y hy
  interval_cases y <;>
    exact ⟨H _ _ _ (by decide) (by decide) (by decide),
      H _ _ _ (by decide) (by decide) (by decide),
      H _ _ _ (by decide) (by decide) (by decide),
      H _ _ _ (by decide) (by decide) (by decide),
      H _ _ _ (by decide) (by decide) (by decide)⟩

/-- Witness for C5 at the zero state and row `y = 0`. -/
theorem chi_row_snapshot_witness :
    (∀ i, i < LANES → (fun _ => (0 : Nat)) i < 2 ^ 64) ∧ (0 : Nat) < 5 ∧
      (chi (fun _ => 0) (5 * 0) =
          (fun _ => (0 : Nat)) (5 * 0) ^^^
            ((MASK ^^^ (fun _ => (0 : Nat)) (5 * 0 + 1)) &&&
              (fun _ => (0 : Nat)) (5 * 0 + 2)) ∧
        chi (fun _ => 0) (5 * 0 + 1) =
          (fun _ => (0 : Nat)) (5 * 0 + 1) ^^^
            ((MASK ^^^ (fun _ => (0 : Nat)) (5 * 0 + 2)) &&&
              (fun _ => (0 : Nat)) (5 * 0 + 3)) ∧
        chi (fun _ => 0) (5 * 0 + 2) =
          (fun _ => (0 : Nat)) (5 * 0 + 2) ^^^
            ((MASK ^^^ (fun _ => (0 : Nat)) (5 * 0 + 3)) &&&
              (fun _ => (0 : Nat)) (5 * 0 + 4)) ∧
        chi (fun _ => 0) (5 * 0 + 3) =
          (fun _ => (0 : Nat)) (5 * 0 + 3) ^^^
            ((MASK ^^^ (fun _ => (0 : Nat)) (5 * 0 + 4)) &&&
              (fun _ => (0 : Nat)) (5 * 0)) ∧
        chi (fun _ => 0) (5 * 0 + 4) =
          (fun _ => (0 : Nat)) (5 * 0 + 4) ^^^
            ((MASK ^^^ (fun _ => (0 : Nat)) (5 * 0)) &&&
              (fun _ => (0 : Nat)) (5 * 0 + 1))) :=
  ⟨fun _ _ => by norm_num, by norm_num,
    chi_row_snapshot (fun _ => 0) (fun _ _ => by norm_num) 0 (by norm_num)⟩

/-! Claim C6 -/

/-- C6: in every round `r`, ρ+π sets scratch lane `π[i]` to
`rol64(S[i], rot_offset(r, ρ[i]))` for each `i ∈ 0..24`, where `S` is the
post-θ state; `rot_offset r base = (base + r*13 % 64) % 64` always lies in
`[0, 63]`; and the 25 scratch lanes then replace the state wholesale. -/
theorem rhoPi_writes_rotated_lanes (s tmp : State) (r : Nat) :
    (∀ i, i < LANES →
        rhoPi r (theta s) tmp (PERM_TABLE.getD i 0) =
          rol (theta s i) (rot_offset r (ROT_TABLE.getD i 0))) ∧
    (∀ base, rot_offset r base = (base + r * 13 % 64) % 64 ∧
        rot_offset r base ≤ 63) ∧
    (∀ j, j < LANES →
        copyBack (theta s) (rhoPi r (theta s) tmp) j = rhoPi r (theta s) tmp j) := by
  refine ⟨?_, ?_, ?_⟩
  · intro i hi
    have hi' : i < 25 := hi
    interval_cases i <;> rfl
  · intro base
    constructor
    · unfold rot_offset
      have h63 : (63 : Nat) = 2 ^ 6 - 1 := by norm_num
      rw [h63, Nat.and_pow_two_sub_one_eq_mod, Nat.and_pow_two_sub_one_eq_mod]
    · unfold rot_offset
      exact Nat.and_le_right
  · intro j hj
    unfold copyBack
    exact if_pos hj

/-- Witness for C6 at the zero state, round 0, lane `i = 2` and `j = 0`. -/
theorem rhoPi_writes_rotated_lanes_witness :
    (2 : Nat) < LANES ∧ (0 : Nat) < LANES ∧
      rhoPi 0 (theta fun _ => 0) (fun _ => 0) (PERM_TABLE.getD 2 0) =
        rol (theta (fun _ => 0) 2) (rot_offset 0 (ROT_TABLE.getD 2 0)) ∧
      (rot_offset 0 7 = (7 + 0 * 13 % 64) % 64 ∧ rot_offset 0 7 ≤ 63) ∧
      copyBack (theta fun _ => 0) (rhoPi 0 (theta fun _ => 0) fun _ => 0) 0 =
        rhoPi 0 (theta fun _ => 0) (fun _ => 0) 0 :=
  ⟨by decide, by decide,
    (rhoPi_writes_rotated_lanes (fun _ => 0) (fun _ => 0) 0).1 2 (by decide),
    (rhoPi_writes_rotated_lanes (fun _ => 0) (fun _ => 0) 0).2.1 7,
    (rhoPi_writes_rotated_lanes (fun _ => 0) (fun _ => 0) 0).2.2 0 (by decide)⟩

/-! Length lemmas for the squeeze read loop. -/

theorem leBytes8_length (x : Nat) : (leBytes8 x).length = 8 := rfl

theorem readLanes_length_le (state : State) :
    ∀ (l : List Nat) (out : List Nat),
      out.length ≤
        (l.foldl (fun o i => if OUT_BYTES ≤ o.length then o else o ++ leBytes8 (state i))
          out).length := by
  intro l
  induction l with
  | nil => intro out; simp
  | cons a t ih =>
    intro out
    rw [List.foldl_cons]
    refine Nat.le_trans ?_ (ih _)
    by_cases h : OUT_BYTES ≤ out.length
    · simp [h]
    · simp [h]

/-! Closed form of the squeeze phase. -/

theorem readLanes_nil (s : State) :
    readLanes s [] =
      leBytes8 (s 0) ++ leBytes8 (s 1) ++ leBytes8 (s 2) ++ leBytes8 (s 3) ++
      leBytes8 (s 4) ++ leBytes8 (s 5) ++ leBytes8 (s 6) ++ leBytes8 (s 7) ++
      leBytes8 (s 8) ++ leBytes8 (s 9) ++ leBytes8 (s 10) ++ leBytes8 (s 11) ++
      leBytes8 (s 12) ++ leBytes8 (s 13) ++ leBytes8 (s 14) ++ leBytes8 (s 15) := by
  have hr : List.range BLOCK_LANES =
      [0, 1, 2, 3, 4, 5, 6, 7, 8, 9, 10, 11, 12, 13, 14, 15, 16] := rfl
  unfold readLanes
  rw [hr]
  simp [List.foldl_cons, OUT_BYTES, leBytes8_length]

theorem readLanes_nil_length (s : State) : (readLanes s []).length = OUT_BYTES := by
  rw [readLanes_nil]
  simp [leBytes8_length, OUT_BYTES]

theorem squeezeLoop_nil (s : State) (r : Nat) :
    squeezeLoop s r [] = readLanes (flipLast s) [] := by
  rw [squeezeLoop.eq_def]
  rw [dif_pos (show ([] : List Nat).length < OUT_BYTES by simp [OUT_BYTES])]
  dsimp only
  rw [squeezeLoop.eq_def]
  rw [dif_neg (by rw [readLanes_nil_length]; exact Nat.lt_irrefl _)]

theorem squeezeLoopElide_nil (s : State) (r : Nat) :
    squeezeLoopElide s r [] = readLanes (flipLast s) [] := by
  rw [squeezeLoopElide.eq_def]
  rw [dif_pos (show ([] : List Nat).length < OUT_BYTES by simp [OUT_BYTES])]
  dsimp only
  rw [dif_neg (by rw [readLanes_nil_length]; exact Nat.lt_irrefl _)]

theorem turb1600_hash_eq_readLanes (data : List Nat) :
    turb1600_hash data = readLanes (flipLast (finalizeState data).1) [] := by
  unfold turb1600_hash
  dsimp only
  rw [squeezeLoop_nil, List.take_of_length_le (Nat.le_of_eq (readLanes_nil_length _))]

/-! Claim C1 -/

/-- C1: the 128-byte digest is the little-endian concatenation of lanes
`S[0]`..`S[15]` of the state after the 36+6 finalization permutations
followed by the `S[24] ^= MASK` flip; the first 8 bytes are the
little-endian encoding of `S[0]`; one squeeze read pass produces the whole
digest; and the value of rate lane `S[16]` never influences the digest. -/
theorem digest_le_concat_first_16_lanes (data : List Nat) :
    turb1600_hash data =
        ((List.range 16).map fun i =>
          leBytes8 (flipLast (finalizeState data).1 i)).flatten ∧
    (turb1600_hash data).take 8 = leBytes8 (flipLast (finalizeState data).1 0) ∧
    turb1600_hash data = readLanes (flipLast (finalizeState data).1) [] ∧
    (∀ v, (squeezeLoop (Function.update (finalizeState data).1 16 v)
        (finalizeState data).2 []).take OUT_BYTES = turb1600_hash data) := by
  have hmain := turb1600_hash_eq_readLanes data
  have hr16 : List.range 16 = [0, 1, 2, 3, 4, 5, 6, 7, 8, 9, 10, 11, 12, 13, 14, 15] := rfl
  refine ⟨?_, ?_, hmain, ?_⟩
  · rw [hmain, readLanes_nil, hr16]
    simp [List.append_assoc]
  · rw [hmain, readLanes_nil]
    simp only [List.append_assoc]
    exact List.take_left' (leBytes8_length _)
  · intro v
    rw [squeezeLoop_nil, List.take_of_length_le (Nat.le_of_eq (readLanes_nil_length _)),
      hmain, readLanes_nil, readLanes_nil]
    simp [flipLast, Function.update_apply, LANES]

/-! Claim C2 -/

/-- C2: the variant of `turb1600_hash` that omits the trailing `permute`
call of the squeeze loop (the one executed after the output buffer
already holds 128 bytes) returns a byte-identical digest. -/
theorem elide_trailing_permute_same_digest (data : List Nat) :
    turb1600_hash_elide data = turb1600_hash data := by
  unfold turb1600_hash_elide turb1600_hash
  dsimp only
  rw [squeezeLoopElide_nil, squeezeLoop_nil]

/-! 64-bit canonicity of state lanes -/

theorem round_constant_lt (idx : Nat) : round_constant idx < 2 ^ 64 := and_MASK_lt _

theorem chi_lane_lt (st : State) : ∀ j, j < LANES → chi st j < 2 ^ 64 := by
  intro j hj
  have hj' : j < 25 := hj
  interval_cases j <;> exact and_MASK_lt _

theorem permute_lane_lt (s : State) (r : Nat) :
    ∀ j, j < LANES → permute s r j < 2 ^ 64 := by
  intro j hj
  unfold permute
  unfold iota
  rw [Function.update_apply]
  split
  · exact xor_lt_64 (chi_lane_lt _ _ (Nat.mod_lt _ (by decide))) (round_constant_lt r)
  · exact chi_lane_lt _ _ hj

theorem permuteN_lane_lt :
    ∀ (n : Nat) (s : State) (r : Nat), (∀ j, j < LANES → s j < 2 ^ 64) →
      ∀ j, j < LANES → (permuteN n s r).1 j < 2 ^ 64 := by
  intro n
  induction n with
  | zero => intro s r hs; exact hs
  | succ n ih => intro s r hs; exact ih _ _ (fun j hj => permute_lane_lt s r j hj)

theorem wordLE_lt_pow (bs : List Nat) (h : ∀ b ∈ bs, b < 256) :
    wordLE bs < 256 ^ bs.length := by
  induction bs with
  | nil => simp [wordLE]
  | cons a t ih =>
    have ha : a < 256 := h a (List.mem_cons_self a t)
    have ht := ih fun b hb => h b (List.mem_cons_of_mem _ hb)
    have hP : 0 < (256 : Nat) ^ t.length := Nat.pos_pow_of_pos _ (by norm_num)
    have hm : 256 * wordLE t ≤ 256 * ((256 : Nat) ^ t.length - 1) :=
      Nat.mul_le_mul_left 256 (Nat.le_sub_one_of_lt ht)
    have hcons : wordLE (a :: t) = a + 256 * wordLE t := rfl
    have hpow : (256 : Nat) ^ (a :: t).length = 256 * 256 ^ t.length := by
      rw [List.length_cons, pow_succ, Nat.mul_comm]
    rw [hcons, hpow]
    omega

theorem wordLE_lt_two_pow_64 (bs : List Nat) (h : ∀ b ∈ bs, b < 256)
    (hlen : bs.length ≤ 8) : wordLE bs < 2 ^ 64 := by
  have h1 := wordLE_lt_pow bs h
  have h2 : (256 : Nat) ^ bs.length ≤ 256 ^ 8 := Nat.pow_le_pow_right (by norm_num) hlen
  have h3 : (256 : Nat) ^ 8 = 2 ^ 64 := by norm_num
  omega

theorem absorb_block_lane_lt (s : State) (block : List Nat)
    (hs : ∀ j, j < LANES → s j < 2 ^ 64) (hb : ∀ b ∈ block, b < 256) :
    ∀ j, j < LANES → absorb_block s block j < 2 ^ 64 := by
  intro j hj
  unfold absorb_block
  rw [foldl_update_range_apply (fun i => wordLE ((block.drop (i * 8)).take 8))]
  split
  · refine xor_lt_64 (hs j hj) (wordLE_lt_two_pow_64 _ ?_ ?_)
    · intro b hbm
      exact hb b (List.mem_of_mem_drop (List.mem_of_mem_take hbm))
    · rw [List.length_take]
      exact Nat.min_le_left _ _
  · exact hs j hj

theorem flipLast_lane_lt (s : State) (hs : ∀ j, j < LANES → s j < 2 ^ 64) :
    ∀ j, j < LANES → flipLast s j < 2 ^ 64 := by
  intro j hj
  unfold flipLast
  rw [Function.update_apply]
  split
  · refine xor_lt_64 (hs _ (by decide)) ?_
    rw [MASK_eq]
    omega
  · exact hs j hj

set_option maxRecDepth 4000 in
theorem seedBlock_bytes_lt : ∀ b ∈ seedBlock, b < 256 := by decide

theorem seed_state_lane_lt : ∀ j, j < LANES → seed_state j < 2 ^ 64 := by
  intro j hj
  unfold seed_state
  refine permuteN_lane_lt 8 _ 0 ?_ j hj
  exact absorb_block_lane_lt _ _ (fun j hj => by norm_num) seedBlock_bytes_lt

theorem getD_lt_of_all {l : List Nat} (h : ∀ b ∈ l, b < 256) (j : Nat) :
    l.getD j 0 < 256 := by
  rw [List.getD_eq_getElem?_getD]
  cases hx : l[j]? with
  | none => norm_num
  | some x => exact h x (List.getElem?_mem hx)

theorem finalBlock_bytes_lt (data : List Nat) (hdata : ∀ b ∈ data, b < 256)
    (pos : Nat) : ∀ b ∈ finalBlock data pos, b < 256 := by
  have htail1 : ∀ b ∈ (data.drop pos ++
      List.replicate (BLOCK_BYTES - (data.length - pos)) 0).set (data.length - pos) 1,
      b < 256 := by
    intro b hb
    rcases List.mem_or_eq_of_mem_set hb with h3 | rfl
    · rcases List.mem_append.mp h3 with h4 | h4
      · exact hdata b (List.mem_of_mem_drop h4)
      · rw [List.eq_of_mem_replicate h4]; norm_num
    · norm_num
  intro b hb
  unfold finalBlock at hb
  dsimp only at hb
  rcases List.mem_or_eq_of_mem_set hb with h3 | rfl
  · exact htail1 b h3
  · have hg := getD_lt_of_all htail1 (BLOCK_BYTES - 1)
    have h256 : (256 : Nat) = 2 ^ 8 := by norm_num
    rw [h256] at hg ⊢
    exact Nat.or_lt_two_pow hg (by norm_num)

theorem absorbLoop_lane_lt (data : List Nat) (hdata : ∀ b ∈ data, b < 256) :
    ∀ (k : Nat) (s : State) (r pos : Nat), data.length - pos ≤ k →
      (∀ j, j < LANES → s j < 2 ^ 64) →
      ∀ j, j < LANES → (absorbLoop data s r pos).1 j < 2 ^ 64 := by
  intro k
  induction k with
  | zero =>
    intro s r pos hk hs
    rw [absorbLoop.eq_def]
    rw [dif_neg (by have hB : BLOCK_BYTES = 136 := rfl; omega)]
    exact hs
  | succ k ih =>
    intro s r pos hk hs
    rw [absorbLoop.eq_def]
    by_cases h : pos + BLOCK_BYTES ≤ data.length
    · rw [dif_pos h]
      dsimp only
      refine ih _ _ _ (by have hB : BLOCK_BYTES = 136 := rfl; omega) ?_
      refine permuteN_lane_lt _ _ _ ?_
      refine absorb_block_lane_lt _ _ hs ?_
      intro b hbm
      exact hdata b (List.mem_of_mem_drop (List.mem_of_mem_take hbm))
    · rw [dif_neg h]
      exact hs

theorem finalizeState_lane_lt (data : List Nat) (hdata : ∀ b ∈ data, b < 256) :
    ∀ j, j < LANES → (finalizeState data).1 j < 2 ^ 64 := by
  intro j hj
  unfold finalizeState
  dsimp only
  refine permuteN_lane_lt _ _ _ ?_ j hj
  refine absorb_block_lane_lt _ _ ?_ (finalBlock_bytes_lt data hdata _)
  intro j hj
  exact absorbLoop_lane_lt data hdata data.length seed_state 0 0 (by omega)
    seed_state_lane_lt j hj

/-! Position reached by the absorb loop -/

theorem absorbLoop_pos (data : List Nat) :
    ∀ (k : Nat) (s : State) (r pos : Nat), data.length - pos ≤ k →
      ((pos ≤ data.length → (absorbLoop data s r pos).2.2 ≤ data.length) ∧
        data.length - (absorbLoop data s r pos).2.2 =
          (data.length - pos) % BLOCK_BYTES) := by
  have hB : BLOCK_BYTES = 136 := rfl
  intro k
  induction k with
  | zero =>
    intro s r pos hk
    rw [absorbLoop.eq_def, dif_neg (by omega)]
    dsimp only
    exact ⟨fun h => h, by rw [hB]; omega⟩
  | succ k ih =>
    intro s r pos hk
    rw [absorbLoop.eq_def]
    by_cases h : pos + BLOCK_BYTES ≤ data.length
    · rw [dif_pos h]
      dsimp only
      obtain ⟨h1, h2⟩ :=
        ih (permuteN ROUNDS_MAIN (absorb_block s ((data.drop pos).take BLOCK_BYTES)) r).1
          (permuteN ROUNDS_MAIN (absorb_block s ((data.drop pos).take BLOCK_BYTES)) r).2
          (pos + BLOCK_BYTES) (by omega)
      refine ⟨fun _ => h1 (by omega), ?_⟩
      rw [h2, hB]
      rw [hB] at h
      omega
    · rw [dif_neg h]
      dsimp only
      rw [hB] at h ⊢
      exact ⟨fun hp => hp, by omega⟩

theorem absorbPhase_pos_eq (data : List Nat) :
    (absorbPhase data).2.2 = data.length - data.length % BLOCK_BYTES ∧
    data.length - (absorbPhase data).2.2 = data.length % BLOCK_BYTES := by
  have hB : BLOCK_BYTES = 136 := rfl
  obtain ⟨h1, h2⟩ := absorbLoop_pos data data.length seed_state 0 0 (by omega)
  have h3 := h1 (Nat.zero_le _)
  unfold absorbPhase
  rw [hB] at h2
  rw [hB]
  constructor <;> omega

/-! Byte-level description of the final padded block -/

theorem finalBlock_getD (data : List Nat) (pos : Nat) (hple : pos ≤ data.length)
    (hlt : data.length - pos < BLOCK_BYTES) :
    ∀ j, j < BLOCK_BYTES →
      (finalBlock data pos).getD j 0 =
        if j = BLOCK_BYTES - 1 then
          (if data.length - pos = BLOCK_BYTES - 1 then 0x81 else 0x80)
        else if j = data.length - pos then 0x01
        else if j < data.length - pos then data.getD (pos + j) 0
        else 0 := by
  intro j hj
  have hB : BLOCK_BYTES = 136 := rfl
  unfold finalBlock
  dsimp only
  have hld : (data.drop pos).length = data.length - pos := List.length_drop pos data
  have hlen0 : (data.drop pos ++
      List.replicate (BLOCK_BYTES - (data.length - pos)) 0).length = BLOCK_BYTES := by
    rw [List.length_append, hld, List.length_replicate]
    omega
  have hlen1 : ((data.drop pos ++
      List.replicate (BLOCK_BYTES - (data.length - pos)) 0).set
        (data.length - pos) 1).length = BLOCK_BYTES := by
    rw [List.length_set, hlen0]
  by_cases hj135 : j = BLOCK_BYTES - 1
  · subst hj135
    rw [if_pos rfl, List.getD_eq_getElem?_getD,
      List.getElem?_set_self (by rw [hlen1]; omega)]
    by_cases hrem : data.length - pos = BLOCK_BYTES - 1
    · rw [if_pos hrem, List.getD_eq_getElem?_getD, ← hrem,
        List.getElem?_set_self (by rw [hlen0, hrem]; omega)]
      rfl
    · rw [if_neg hrem, List.getD_eq_getElem?_getD,
        List.getElem?_set_ne (by omega),
        List.getElem?_append_right (by rw [hld]; omega),
        List.getElem?_replicate_of_lt (by rw [hld]; omega)]
      rfl
  · rw [if_neg hj135, List.getD_eq_getElem?_getD,
      List.getElem?_set_ne (by omega)]
    by_cases hjrem : j = data.length - pos
    · rw [if_pos hjrem, hjrem,
        List.getElem?_set_self (by rw [hlen0]; omega)]
      rfl
    · rw [if_neg hjrem, List.getElem?_set_ne (by omega)]
      by_cases hjlt : j < data.length - pos
      · rw [if_pos hjlt,
          List.getElem?_append_left (by rw [hld]; omega),
          List.getElem?_drop, List.getD_eq_getElem?_getD]
      · rw [if_neg hjlt,
          List.getElem?_append_right (by rw [hld]; omega),
          List.getElem?_replicate_of_lt (by rw [hld]; omega)]
        rfl

/-! Claim C3 -/

/-- C3: with `rem = |M| mod 136` the number of bytes left after the
full-block absorb loop (`0 ≤ rem < 136`), the final padded block is the
136-byte zero buffer overwritten at positions `0..rem-1` with the trailing
`rem` bytes of `M`, with `L[rem]` set to `0x01` and `L[135]` OR-ed with
`0x80`; when `rem = 135` that byte ends up `0x81`, and when `rem = 0`
(including the empty message) `L[0] = 0x01`, `L[135] = 0x80` and all other
bytes are 0. -/
theorem final_block_is_padded_tail (data : List Nat) :
    (data.length - (absorbPhase data).2.2 = data.length % BLOCK_BYTES ∧
      data.length % BLOCK_BYTES < BLOCK_BYTES) ∧
    (∀ j, j < BLOCK_BYTES →
      (finalBlock data (absorbPhase data).2.2).getD j 0 =
        if j = BLOCK_BYTES - 1 then
          (if data.length % BLOCK_BYTES = BLOCK_BYTES - 1 then 0x81 else 0x80)
        else if j = data.length % BLOCK_BYTES then 0x01
        else if j < data.length % BLOCK_BYTES then
          data.getD ((absorbPhase data).2.2 + j) 0
        else 0) ∧
    (data.length % BLOCK_BYTES = 0 →
      (finalBlock data (absorbPhase data).2.2).getD 0 0 = 0x01 ∧
      (finalBlock data (absorbPhase data).2.2).getD (BLOCK_BYTES - 1) 0 = 0x80) ∧
    (data.length % BLOCK_BYTES = BLOCK_BYTES - 1 →
      (finalBlock data (absorbPhase data).2.2).getD (BLOCK_BYTES - 1) 0 = 0x81) := by
  obtain ⟨hp1, hp2⟩ := absorbPhase_pos_eq data
  have hB : BLOCK_BYTES = 136 := rfl
  have hmod : data.length % BLOCK_BYTES < BLOCK_BYTES := by rw [hB]; omega
  have hple : (absorbPhase data).2.2 ≤ data.length := by rw [hB] at hp1; omega
  have hlt : data.length - (absorbPhase data).2.2 < BLOCK_BYTES := by
    rw [hp2]; exact hmod
  have hpoint : ∀ j, j < BLOCK_BYTES →
      (finalBlock data (absorbPhase data).2.2).getD j 0 =
        if j = BLOCK_BYTES - 1 then
          (if data.length % BLOCK_BYTES = BLOCK_BYTES - 1 then 0x81 else 0x80)
        else if j = data.length % BLOCK_BYTES then 0x01
        else if j < data.length % BLOCK_BYTES then
          data.getD ((absorbPhase data).2.2 + j) 0
        else 0 := by
    intro j hj
    have := finalBlock_getD data (absorbPhase data).2.2 hple hlt j hj
    rw [hp2] at this
    exact this
  refine ⟨⟨hp2, hmod⟩, hpoint, ?_, ?_⟩
  · intro h0
    constructor
    · have := hpoint 0 (by rw [hB]; omega)
      rw [h0] at this
      rw [this, if_neg (by rw [hB]; omega), if_pos rfl]
    · have := hpoint (BLOCK_BYTES - 1) (by rw [hB]; omega)
      rw [h0] at this
      rw [this, if_pos rfl, if_neg (by rw [hB]; omega)]
  · intro h135
    have := hpoint (BLOCK_BYTES - 1) (by rw [hB]; omega)
    rw [h135] at this
    rw [this, if_pos rfl, if_pos rfl]

/-- Witness for C3 at `data = [5]` and `j = 0`: the padded block starts
with the single message byte. -/
theorem final_block_is_padded_tail_witness :
    (0 : Nat) < BLOCK_BYTES ∧
      (finalBlock [5] (absorbPhase [5]).2.2).getD 0 0 =
        if (0 : Nat) = BLOCK_BYTES - 1 then
          (if ([5] : List Nat).length % BLOCK_BYTES = BLOCK_BYTES - 1 then 0x81 else 0x80)
        else if (0 : Nat) = ([5] : List Nat).length % BLOCK_BYTES then 0x01
        else if (0 : Nat) < ([5] : List Nat).length % BLOCK_BYTES then
          ([5] : List Nat).getD ((absorbPhase [5]).2.2 + 0) 0
        else 0 :=
  ⟨by decide, (final_block_is_padded_tail [5]).2.1 0 (by decide)⟩

/-! Claim C8 -/

/-- C8: all 25 state lanes lie in `[0, 2^64)` at every point: the seeded
state satisfies this; `absorb_block` (on byte-valued blocks) preserves it;
a full permutation round produces canonical lanes unconditionally (the χ
re-masking cancels the intermediates of the Python `~` complement); and
the squeeze-phase `S[24] ^= MASK` flip preserves it. -/
theorem state_lanes_canonical :
    (∀ i, i < LANES → seed_state i < 2 ^ 64) ∧
    (∀ (s : State) (block : List Nat), (∀ i, i < LANES → s i < 2 ^ 64) →
      (∀ b ∈ block, b < 256) → ∀ i, i < LANES → absorb_block s block i < 2 ^ 64) ∧
    (∀ (s : State) (r : Nat), (∀ i, i < LANES → s i < 2 ^ 64) →
      ∀ i, i < LANES → permute s r i < 2 ^ 64) ∧
    (∀ s : State, (∀ i, i < LANES → s i < 2 ^ 64) →
      ∀ i, i < LANES → flipLast s i < 2 ^ 64) :=
  ⟨seed_state_lane_lt,
    fun s block hs hb => absorb_block_lane_lt s block hs hb,
    fun s r _ i hi => permute_lane_lt s r i hi,
    fun s hs => flipLast_lane_lt s hs⟩

/-- Witness for C8 at the zero state, the empty block, round 0. -/
theorem state_lanes_canonical_witness :
    seed_state 0 < 2 ^ 64 ∧
    absorb_block (fun _ => 0) [] 0 < 2 ^ 64 ∧
    permute (fun _ => 0) 0 0 < 2 ^ 64 ∧
    flipLast (fun _ => 0) 24 < 2 ^ 64 :=
  ⟨state_lanes_canonical.1 0 (by decide),
    state_lanes_canonical.2.1 (fun _ => 0) [] (fun _ _ => by norm_num)
      (fun b hb => absurd hb (List.not_mem_nil b)) 0 (by decide),
    state_lanes_canonical.2.2.1 (fun _ => 0) 0 (fun _ _ => by norm_num) 0 (by decide),
    state_lanes_canonical.2.2.2 (fun _ => 0) (fun _ _ => by norm_num) 24 (by decide)⟩

/-! Claim C4 -/

theorem mem_leBytes8_lt {b x : Nat} (hb : b ∈ leBytes8 x) : b < 256 := by
  unfold leBytes8 at hb
  obtain ⟨j, hj, rfl⟩ := List.mem_map.mp hb
  exact Nat.mod_lt _ (by norm_num)

/-- C4: `turb1600_hash` is total over byte sequences: every input of every
length produces exactly 128 output bytes (each a valid byte value), and
every state lane entering the squeeze serialization is a canonical 64-bit
value, so the one latent failure mode of the Python code
(`int.to_bytes` overflow) is unreachable. -/
theorem hash_total_returns_128_bytes (data : List Nat)
    (hdata : ∀ b ∈ data, b < 256) :
    (turb1600_hash data).length = OUT_BYTES ∧
    (∀ b ∈ turb1600_hash data, b < 256) ∧
    (∀ i, i < LANES → (finalizeState data).1 i < 2 ^ 64) := by
  refine ⟨?_, ?_, finalizeState_lane_lt data hdata⟩
  · rw [turb1600_hash_eq_readLanes, readLanes_nil_length]
  · intro b hb
    rw [turb1600_hash_eq_readLanes, readLanes_nil] at hb
    repeat' rcases List.mem_append.mp hb with hb | hb
    all_goals exact mem_leBytes8_lt hb

/-- Witness for C4 at the empty message. -/
theorem hash_total_returns_128_bytes_witness :
    (∀ b ∈ ([] : List Nat), b < 256) ∧
      ((turb1600_hash []).length = OUT_BYTES ∧
        (∀ b ∈ turb1600_hash [], b < 256) ∧
        (∀ i, i < LANES → (finalizeState []).1 i < 2 ^ 64)) :=
  ⟨fun b hb => absurd hb (List.not_mem_nil b),
    hash_total_returns_128_bytes [] (fun b hb => absurd hb (List.not_mem_nil b))⟩

end Turb1600
